import Mathlib

/-!
Shallow embedding of the stock-exchange model in `src/stock.py`.

Numeric values (prices, quantities, dividends) are modelled as rationals;
timestamps are integers (an instant on an arbitrary linear time axis), and
the five-minute window length is a fixed positive duration constant.
Raising `ValueError` at `Trade` construction (named `InvalidTradeError` in
the specification) is modelled with `Except`; Python `None` results are
`Option.none`.  The final real-valued power in the all-share index is
modelled with real exponentiation (`Real.rpow`).
-/

/-- Trade side, `BUY`/`SELL` in the source. -/
inductive Indicator where
  | buy
  | sell
deriving DecidableEq

/-- The error raised by `Trade.__init__` when quantity or price is
non-positive (a `ValueError` in the Python source, called
`InvalidTradeError` by the specification). -/
structure InvalidTradeError where
  msg : String
deriving DecidableEq

/-- A single trade transaction, the fields of Python's `Trade`. -/
structure Trade where
  timestamp : ℤ
  quantity : ℚ
  indicator : Indicator
  price : ℚ
deriving DecidableEq

/-- `Trade.__init__`: validates `quantity <= 0 or price <= 0` and raises,
otherwise stores the four fields. -/
def Trade.make (timestamp : ℤ) (quantity : ℚ) (indicator : Indicator) (price : ℚ) :
    Except InvalidTradeError Trade :=
  if quantity ≤ 0 ∨ price ≤ 0 then
    Except.error ⟨"Trade quantity and price must be positive."⟩
  else
    Except.ok ⟨timestamp, quantity, indicator, price⟩

/-- The dividend data distinguishing the two `Stock` subclasses:
`CommonStock` stores `last_dividend`, `PreferredStock` stores both
`last_dividend` and `fixed_dividend_rate`. -/
inductive DividendInfo where
  | common (last_dividend : ℚ)
  | preferred (last_dividend : ℚ) (fixed_dividend_rate : ℚ)
deriving DecidableEq

/-- A stock: `symbol`, `par_value` and the trade log from the base class
`Stock`, plus the subclass dividend fields. -/
structure Stock where
  symbol : String
  par_value : ℚ
  info : DividendInfo
  trades : List Trade
deriving DecidableEq

/-- `get_dividend`: `last_dividend` on `CommonStock`,
`fixed_dividend_rate * par_value` on `PreferredStock`. -/
def Stock.get_dividend (s : Stock) : ℚ :=
  match s.info with
  | .common last_dividend => last_dividend
  | .preferred _ fixed_dividend_rate => fixed_dividend_rate * s.par_value

/-- `calculate_dividend_yield`, per subclass: `None` when `price <= 0`,
otherwise `last_dividend / price` (common) or
`fixed_dividend_rate * par_value / price` (preferred). -/
def Stock.calculate_dividend_yield (s : Stock) (price : ℚ) : Option ℚ :=
  match s.info with
  | .common last_dividend =>
      if price ≤ 0 then none else some (last_dividend / price)
  | .preferred _ fixed_dividend_rate =>
      if price ≤ 0 then none else some (fixed_dividend_rate * s.par_value / price)

/-- `Stock.calculate_pe_ratio` from the base class: `None` when
`price <= 0` or the dividend is zero, else `price / dividend`. -/
def Stock.calculate_pe_ratio (s : Stock) (price : ℚ) : Option ℚ :=
  if price ≤ 0 then none
  else
    let dividend := s.get_dividend
    if dividend = 0 then none
    else some (price / dividend)

/-- The five-minute window `datetime.timedelta(minutes=5)`, in seconds on
the integer time axis. -/
def fiveMinutes : ℤ := 300

/-- `Stock.record_trade`: builds a `Trade` timestamped `now` and appends it
to the log, returning the new trade; a construction error propagates and
the log is left as it was. -/
def Stock.record_trade (s : Stock) (now : ℤ) (quantity : ℚ) (indicator : Indicator)
    (price : ℚ) : Stock × Except InvalidTradeError Trade :=
  match Trade.make now quantity indicator price with
  | .error e => (s, .error e)
  | .ok trade => ({ s with trades := s.trades ++ [trade] }, .ok trade)

/-- The local `recent_trades` of `calculate_volume_weighted_stock_price`:
trades with `t.timestamp >= cutoff_time` where `cutoff_time = now - 5 min`. -/
def Stock.recent_trades (s : Stock) (now : ℤ) : List Trade :=
  s.trades.filter fun t => decide (now - fiveMinutes ≤ t.timestamp)

/-- `Stock.calculate_volume_weighted_stock_price`: `None` when no trade is
in the window; otherwise accumulates `total_value` and `total_quantity`
over the recent trades, returns `None` on zero total quantity (defensive)
and `total_value / total_quantity` otherwise. -/
def Stock.calculate_volume_weighted_stock_price (s : Stock) (now : ℤ) : Option ℚ :=
  let recent := s.recent_trades now
  if recent.isEmpty then none
  else
    let totals := recent.foldl
      (fun acc t => (acc.1 + t.price * t.quantity, acc.2 + t.quantity)) ((0 : ℚ), (0 : ℚ))
    if totals.2 = 0 then none
    else some (totals.1 / totals.2)

/-- The exchange: `self.stocks`, a dict keyed by symbol, modelled as an
association list in insertion order (Python dicts preserve insertion order
and keep the original position on overwrite). -/
structure StockExchange where
  stocks : List (String × Stock)
deriving DecidableEq

/-- Dict insertion with Python semantics: overwrite in place when the key
exists, append otherwise. -/
def dictInsert : List (String × Stock) → String → Stock → List (String × Stock)
  | [], sym, s => [(sym, s)]
  | (k, v) :: rest, sym, s =>
      if k = sym then (k, s) :: rest else (k, v) :: dictInsert rest sym s

/-- `StockExchange.add_stock`: `self.stocks[stock.symbol] = stock`. -/
def StockExchange.add_stock (e : StockExchange) (s : Stock) : StockExchange :=
  ⟨dictInsert e.stocks s.symbol s⟩

/-- `StockExchange.get_stock`: `self.stocks.get(symbol)`. -/
def StockExchange.get_stock (e : StockExchange) (symbol : String) : Option Stock :=
  (e.stocks.find? fun p => p.1 == symbol).map (·.2)

/-- The collection loop of `calculate_gbce_all_share_index`: for each
stock, append its VWSP when it `is not None and vwsp > 0`. -/
def collectVwsps (now : ℤ) : List Stock → List ℚ
  | [] => []
  | s :: rest =>
      match s.calculate_volume_weighted_stock_price now with
      | some v =>
          if 0 < v then v :: collectVwsps now rest else collectVwsps now rest
      | none => collectVwsps now rest

/-- The `vwsp_values` list built by `calculate_gbce_all_share_index`. -/
def StockExchange.vwsp_values (e : StockExchange) (now : ℤ) : List ℚ :=
  collectVwsps now (e.stocks.map (·.2))

/-- `StockExchange.calculate_gbce_all_share_index`: `None` when no positive
VWSP was collected, otherwise the running product of the collected values
raised to the power `1/n`. -/
noncomputable def StockExchange.calculate_gbce_all_share_index
    (e : StockExchange) (now : ℤ) : Option ℝ :=
  let values := e.vwsp_values now
  if values.isEmpty then none
  else
    let n := values.length
    let product := values.foldl (fun (acc : ℝ) (v : ℚ) => acc * (v : ℝ)) 1
    some (product ^ ((1 : ℝ) / (n : ℝ)))

/-- `registerAll l` builds an exchange by registering the instruments of
`l` in order, the way callers wire up the exchange. -/
def registerAll (l : List Stock) : StockExchange :=
  l.foldl StockExchange.add_stock ⟨[]⟩

/-! ### Helper lemmas -/

theorem vwsp_foldl_totals (l : List Trade) (a b : ℚ) :
    l.foldl (fun acc t => (acc.1 + t.price * t.quantity, acc.2 + t.quantity)) (a, b) =
      (a + (l.map fun t => t.price * t.quantity).sum, b + (l.map fun t => t.quantity).sum) := by
  induction l generalizing a b with
  | nil => simp
  | cons t l ih => simp [ih, add_assoc]

theorem sum_quantity_pos (l : List Trade) (hne : l ≠ [])
    (hq : ∀ t ∈ l, 0 < t.quantity) :
    0 < (l.map fun t => t.quantity).sum := by
  apply List.sum_pos
  · intro x hx
    obtain ⟨t, ht, rfl⟩ := List.mem_map.mp hx
    exact hq t ht
  · simpa using hne

theorem mem_recent_trades (s : Stock) (now : ℤ) (t : Trade) :
    t ∈ s.recent_trades now ↔ t ∈ s.trades ∧ now - fiveMinutes ≤ t.timestamp := by
  simp [Stock.recent_trades, List.mem_filter]

theorem vwsp_of_recent_ne_nil (s : Stock) (now : ℤ)
    (hq : ∀ t ∈ s.trades, 0 < t.quantity) (hne : s.recent_trades now ≠ []) :
    s.calculate_volume_weighted_stock_price now =
      some (((s.recent_trades now).map fun t => t.price * t.quantity).sum /
            ((s.recent_trades now).map fun t => t.quantity).sum) := by
  have hsub : ∀ t ∈ s.recent_trades now, 0 < t.quantity := by
    intro t ht
    exact hq t ((mem_recent_trades s now t).mp ht).1
  have hpos := sum_quantity_pos (s.recent_trades now) hne hsub
  have h2 : ¬ (s.recent_trades now).isEmpty = true := by
    simp [List.isEmpty_iff, hne]
  have h3 : ¬ ((s.recent_trades now).map fun t => t.quantity).sum = 0 :=
    ne_of_gt hpos
  have h4 : (s.recent_trades now).foldl
      (fun acc t => (acc.1 + t.price * t.quantity, acc.2 + t.quantity)) (0 : ℚ × ℚ) =
      (((s.recent_trades now).map fun t => t.price * t.quantity).sum,
       ((s.recent_trades now).map fun t => t.quantity).sum) := by
    simpa using vwsp_foldl_totals (s.recent_trades now) 0 0
  simp [Stock.calculate_volume_weighted_stock_price, h4, h2, h3]

theorem vwsp_of_recent_nil (s : Stock) (now : ℤ) (h : s.recent_trades now = []) :
    s.calculate_volume_weighted_stock_price now = none := by
  simp [Stock.calculate_volume_weighted_stock_price, h]

theorem collectVwsps_eq_filterMap (now : ℤ) (l : List Stock) :
    collectVwsps now l = l.filterMap fun s =>
      match s.calculate_volume_weighted_stock_price now with
      | some v => if 0 < v then some v else none
      | none => none := by
  induction l with
  | nil => rfl
  | cons s l ih =>
      simp only [collectVwsps, List.filterMap_cons]
      cases hv : s.calculate_volume_weighted_stock_price now with
      | none => simpa using ih
      | some v =>
          by_cases h0 : 0 < v
          · simp [h0, ih]
          · simp [h0, ih]

theorem mem_vwsp_values (e : StockExchange) (now : ℤ) (v : ℚ) :
    v ∈ e.vwsp_values now ↔
      ∃ p ∈ e.stocks, p.2.calculate_volume_weighted_stock_price now = some v ∧ 0 < v := by
  rw [StockExchange.vwsp_values, collectVwsps_eq_filterMap, List.mem_filterMap]
  constructor
  · rintro ⟨s, hs, hf⟩
    obtain ⟨p, hp, rfl⟩ := List.mem_map.mp hs
    refine ⟨p, hp, ?_⟩
    cases hv : p.2.calculate_volume_weighted_stock_price now with
    | none => rw [hv] at hf; exact absurd hf (by simp)
    | some w =>
        rw [hv] at hf
        by_cases h0 : 0 < w
        · simp only [if_pos h0, Option.some.injEq] at hf
          subst hf
          exact ⟨rfl, h0⟩
        · simp [h0] at hf
  · rintro ⟨p, hp, hv, h0⟩
    exact ⟨p.2, List.mem_map.mpr ⟨p, hp, rfl⟩, by rw [hv]; simp [h0]⟩

theorem foldl_mul_cast (l : List ℚ) (a : ℝ) :
    l.foldl (fun (acc : ℝ) (v : ℚ) => acc * (v : ℝ)) a =
      a * (l.map fun v : ℚ => (v : ℝ)).prod := by
  induction l generalizing a with
  | nil => simp
  | cons v l ih => simp [ih, mul_assoc]

theorem all_share_index_eq (e : StockExchange) (now : ℤ) :
    e.calculate_gbce_all_share_index now =
      if e.vwsp_values now = [] then none
      else some ((((e.vwsp_values now).map fun v : ℚ => (v : ℝ)).prod) ^
        ((1 : ℝ) / ((e.vwsp_values now).length : ℝ))) := by
  by_cases h : e.vwsp_values now = []
  · simp [StockExchange.calculate_gbce_all_share_index, h]
  · simp [StockExchange.calculate_gbce_all_share_index, h, foldl_mul_cast,
      List.isEmpty_iff]

theorem dictInsert_of_not_mem (lst : List (String × Stock)) (sym : String) (s : Stock)
    (h : ∀ p ∈ lst, p.1 ≠ sym) :
    dictInsert lst sym s = lst ++ [(sym, s)] := by
  induction lst with
  | nil => rfl
  | cons p rest ih =>
      have hp : p.1 ≠ sym := h p (List.mem_cons_self p rest)
      simp only [dictInsert, if_neg hp, List.cons_append, List.cons.injEq, true_and]
      exact ih fun q hq => h q (List.mem_cons_of_mem p hq)

theorem foldl_add_stock_stocks (l : List Stock) (e : StockExchange)
    (hdisj : ∀ s ∈ l, ∀ p ∈ e.stocks, p.1 ≠ s.symbol)
    (hnd : (l.map fun s : Stock => s.symbol).Nodup) :
    (l.foldl StockExchange.add_stock e).stocks =
      e.stocks ++ l.map fun s : Stock => (s.symbol, s) := by
  induction l generalizing e with
  | nil => simp
  | cons s l ih =>
      have hstep : (e.add_stock s).stocks = e.stocks ++ [(s.symbol, s)] :=
        dictInsert_of_not_mem e.stocks s.symbol s
          fun p hp => hdisj s (List.mem_cons_self s l) p hp
      have hnd' : (l.map fun s : Stock => s.symbol).Nodup := by
        simpa using hnd.of_cons
      have hhead : ∀ s2 ∈ l, s.symbol ≠ s2.symbol := by
        intro s2 hs2 hEq
        have : s.symbol ∈ l.map fun s : Stock => s.symbol :=
          List.mem_map.mpr ⟨s2, hs2, hEq.symm⟩
        exact (List.nodup_cons.mp (by simpa using hnd)).1 this
      have hdisj' : ∀ s2 ∈ l, ∀ p ∈ (e.add_stock s).stocks, p.1 ≠ s2.symbol := by
        intro s2 hs2 p hp
        rw [hstep] at hp
        rcases List.mem_append.mp hp with hmem | hmem
        · exact hdisj s2 (List.mem_cons_of_mem s hs2) p hmem
        · have : p = (s.symbol, s) := by simpa using hmem
          subst this
          exact hhead s2 hs2
      calc (List.foldl StockExchange.add_stock (e.add_stock s) l).stocks
        _ = (e.add_stock s).stocks ++ l.map (fun s : Stock => (s.symbol, s)) :=
            ih (e.add_stock s) hdisj' hnd'
        _ = e.stocks ++ (s :: l).map fun s : Stock => (s.symbol, s) := by
            rw [hstep]; simp

theorem registerAll_stocks (l : List Stock)
    (hnd : (l.map fun s : Stock => s.symbol).Nodup) :
    (registerAll l).stocks = l.map fun s : Stock => (s.symbol, s) := by
  have := foldl_add_stock_stocks l ⟨[]⟩ (by intro s _ p hp; simp at hp) hnd
  simpa [registerAll] using this

theorem vwsp_values_perm (e1 e2 : StockExchange) (now : ℤ)
    (hp : e1.stocks.Perm e2.stocks) :
    (e1.vwsp_values now).Perm (e2.vwsp_values now) := by
  rw [StockExchange.vwsp_values, StockExchange.vwsp_values,
    collectVwsps_eq_filterMap, collectVwsps_eq_filterMap]
  exact (hp.map _).filterMap _

theorem index_of_stocks_perm (e1 e2 : StockExchange) (now : ℤ)
    (hp : e1.stocks.Perm e2.stocks) :
    e1.calculate_gbce_all_share_index now = e2.calculate_gbce_all_share_index now := by
  have hv := vwsp_values_perm e1 e2 now hp
  rw [all_share_index_eq, all_share_index_eq]
  by_cases h1 : e1.vwsp_values now = []
  · have h2 : e2.vwsp_values now = [] := by
      rw [h1] at hv
      exact hv.symm.eq_nil
    rw [h1, h2]
  · have h2 : e2.vwsp_values now ≠ [] := by
      intro h2
      rw [h2] at hv
      exact h1 hv.eq_nil
    rw [if_neg h1, if_neg h2, (hv.map fun v : ℚ => (v : ℝ)).prod_eq, hv.length_eq]

/-! ### State-passing renderings of the query operations

In Python every method receives the mutable `self`; the following
definitions thread that state explicitly, returning the (possibly
updated) object next to the result, so that the absence of mutation in
the query methods is a provable statement rather than a modelling
assumption.  Each branch mirrors the corresponding `return` of the
source method. -/

/-- `calculate_dividend_yield` with explicit state. -/
def Stock.calculate_dividend_yieldS (s : Stock) (price : ℚ) : Stock × Option ℚ :=
  match s.info with
  | .common last_dividend =>
      if price ≤ 0 then (s, none) else (s, some (last_dividend / price))
  | .preferred _ fixed_dividend_rate =>
      if price ≤ 0 then (s, none)
      else (s, some (fixed_dividend_rate * s.par_value / price))

/-- `calculate_pe_ratio` with explicit state. -/
def Stock.calculate_pe_ratioS (s : Stock) (price : ℚ) : Stock × Option ℚ :=
  if price ≤ 0 then (s, none)
  else
    let dividend := s.get_dividend
    if dividend = 0 then (s, none)
    else (s, some (price / dividend))

/-- `calculate_volume_weighted_stock_price` with explicit state. -/
def Stock.calculate_volume_weighted_stock_priceS (s : Stock) (now : ℤ) :
    Stock × Option ℚ :=
  let recent := s.recent_trades now
  if recent.isEmpty then (s, none)
  else
    let totals := recent.foldl
      (fun acc t => (acc.1 + t.price * t.quantity, acc.2 + t.quantity)) ((0 : ℚ), (0 : ℚ))
    if totals.2 = 0 then (s, none)
    else (s, some (totals.1 / totals.2))

/-- The loop of `calculate_gbce_all_share_index` with explicit state: each
stock is passed through the stateful VWSP call and put back into the
registry. -/
def gbceLoopS (now : ℤ) : List (String × Stock) → List (String × Stock) × List ℚ
  | [] => ([], [])
  | (k, s) :: rest =>
      let step := s.calculate_volume_weighted_stock_priceS now
      let restRes := gbceLoopS now rest
      ((k, step.1) :: restRes.1,
        match step.2 with
        | some v => if 0 < v then v :: restRes.2 else restRes.2
        | none => restRes.2)

/-- `calculate_gbce_all_share_index` with explicit state. -/
noncomputable def StockExchange.calculate_gbce_all_share_indexS
    (e : StockExchange) (now : ℤ) : StockExchange × Option ℝ :=
  let res := gbceLoopS now e.stocks
  if res.2.isEmpty then (⟨res.1⟩, none)
  else
    let n := res.2.length
    let product := res.2.foldl (fun (acc : ℝ) (v : ℚ) => acc * (v : ℝ)) 1
    (⟨res.1⟩, some (product ^ ((1 : ℝ) / (n : ℝ))))

theorem dividend_yieldS_fst (s : Stock) (price : ℚ) :
    (s.calculate_dividend_yieldS price).1 = s := by
  cases h : s.info <;> simp [Stock.calculate_dividend_yieldS, h] <;> split <;> rfl

theorem pe_ratioS_fst (s : Stock) (price : ℚ) :
    (s.calculate_pe_ratioS price).1 = s := by
  simp only [Stock.calculate_pe_ratioS]
  split
  · rfl
  · split <;> rfl

theorem vwspS_fst (s : Stock) (now : ℤ) :
    (s.calculate_volume_weighted_stock_priceS now).1 = s := by
  simp only [Stock.calculate_volume_weighted_stock_priceS]
  split
  · rfl
  · split <;> rfl

theorem gbceLoopS_fst (now : ℤ) (l : List (String × Stock)) :
    (gbceLoopS now l).1 = l := by
  induction l with
  | nil => rfl
  | cons p rest ih =>
      obtain ⟨k, s⟩ := p
      simp [gbceLoopS, vwspS_fst, ih]

theorem indexS_fst (e : StockExchange) (now : ℤ) :
    (e.calculate_gbce_all_share_indexS now).1 = e := by
  simp only [StockExchange.calculate_gbce_all_share_indexS]
  split <;> simp [gbceLoopS_fst]

/-! ### Claim theorems -/

/-- C3: Trade construction fails with `InvalidTradeError` exactly when
quantity ≤ 0 or price ≤ 0; every successfully constructed Trade has
quantity > 0 and price > 0 (the embedding is immutable, so the fields
never change afterwards). -/
theorem trade_construction_spec (timestamp : ℤ) (quantity : ℚ)
    (indicator : Indicator) (price : ℚ) :
    ((0 < quantity ∧ 0 < price) →
      Trade.make timestamp quantity indicator price =
        Except.ok ⟨timestamp, quantity, indicator, price⟩) ∧
    ((quantity ≤ 0 ∨ price ≤ 0) →
      Trade.make timestamp quantity indicator price =
        Except.error ⟨"Trade quantity and price must be positive."⟩) ∧
    (∀ t, Trade.make timestamp quantity indicator price = Except.ok t →
      0 < t.quantity ∧ 0 < t.price) := by
  refine ⟨?_, ?_, ?_⟩
  · rintro ⟨hq, hp⟩
    rw [Trade.make, if_neg]
    push_neg
    exact ⟨hq, hp⟩
  · intro h
    rw [Trade.make, if_pos h]
  · intro t h
    rw [Trade.make] at h
    by_cases hc : quantity ≤ 0 ∨ price ≤ 0
    · rw [if_pos hc] at h
      exact absurd h (by simp)
    · rw [if_neg hc] at h
      push_neg at hc
      cases h
      exact hc

/-- Witness for C3 at concrete inputs: quantity 5 / price 7 constructs the
trade and its fields are positive; quantity -1 fails. -/
theorem trade_construction_spec_witness :
    Trade.make 0 5 .buy 7 = Except.ok ⟨0, 5, .buy, 7⟩ ∧
    Trade.make 0 (-1) .buy 7 =
      Except.error ⟨"Trade quantity and price must be positive."⟩ ∧
    (0 : ℚ) < (5 : ℚ) ∧ (0 : ℚ) < (7 : ℚ) := by
  refine ⟨(trade_construction_spec 0 5 .buy 7).1 (by norm_num),
    (trade_construction_spec 0 (-1) .buy 7).2.1 (by norm_num), ?_⟩
  exact (trade_construction_spec 0 5 .buy 7).2.2 ⟨0, 5, .buy, 7⟩
    ((trade_construction_spec 0 5 .buy 7).1 (by norm_num))

/-- C4: `calculate_pe_ratio` returns `none` exactly when the price is
non-positive or the instrument's dividend is zero, and otherwise
`price / dividend`; the dividend is `last_dividend` on a common stock and
`fixed_dividend_rate * par_value` on a preferred one. -/
theorem pe_ratio_spec (s : Stock) (price : ℚ) (symbol : String)
    (par_value last_dividend rate : ℚ) (trades : List Trade) :
    (s.calculate_pe_ratio price =
      if price ≤ 0 ∨ s.get_dividend = 0 then none
      else some (price / s.get_dividend)) ∧
    (Stock.get_dividend ⟨symbol, par_value, .common last_dividend, trades⟩ =
      last_dividend) ∧
    (Stock.get_dividend ⟨symbol, par_value, .preferred last_dividend rate, trades⟩ =
      rate * par_value) := by
  refine ⟨?_, rfl, rfl⟩
  rw [Stock.calculate_pe_ratio]
  by_cases hp : price ≤ 0
  · simp [hp]
  · by_cases hd : s.get_dividend = 0
    · simp [hp, hd]
    · simp [hp, hd]

/-- C5: `calculate_dividend_yield` returns `none` for any non-positive
price on both variants, and otherwise `last_dividend / price` on common
and `fixed_dividend_rate * par_value / price` on preferred. -/
theorem dividend_yield_spec (symbol : String)
    (par_value last_dividend rate price : ℚ) (trades : List Trade) :
    (Stock.calculate_dividend_yield
        ⟨symbol, par_value, .common last_dividend, trades⟩ price =
      if price ≤ 0 then none else some (last_dividend / price)) ∧
    (Stock.calculate_dividend_yield
        ⟨symbol, par_value, .preferred last_dividend rate, trades⟩ price =
      if price ≤ 0 then none else some (rate * par_value / price)) :=
  ⟨rfl, rfl⟩

/-- C6: `record_trade` propagates `InvalidTradeError` on non-positive
quantity or price and leaves the trade log untouched; on valid inputs it
appends exactly one trade carrying the current time and the given fields,
and returns that same trade. -/
theorem record_trade_spec (s : Stock) (now : ℤ) (quantity : ℚ)
    (indicator : Indicator) (price : ℚ) :
    ((quantity ≤ 0 ∨ price ≤ 0) →
      s.record_trade now quantity indicator price =
        (s, Except.error ⟨"Trade quantity and price must be positive."⟩)) ∧
    ((0 < quantity ∧ 0 < price) →
      s.record_trade now quantity indicator price =
        ({ s with trades := s.trades ++ [⟨now, quantity, indicator, price⟩] },
          Except.ok ⟨now, quantity, indicator, price⟩)) := by
  constructor
  · intro h
    rw [Stock.record_trade, Trade.make, if_pos h]
  · rintro ⟨hq, hp⟩
    rw [Stock.record_trade, Trade.make, if_neg]
    push_neg
    exact ⟨hq, hp⟩

/-- Witness for C6 at concrete inputs: an invalid trade leaves the log
empty, a valid one appends the single expected trade. -/
theorem record_trade_spec_witness :
    ((-1 : ℚ) ≤ 0 ∨ (7 : ℚ) ≤ 0) ∧ ((0 : ℚ) < 10 ∧ (0 : ℚ) < 7) ∧
    Stock.record_trade ⟨"TEA", 100, .common 0, []⟩ 5 (-1) .buy 7 =
      (⟨"TEA", 100, .common 0, []⟩,
        Except.error ⟨"Trade quantity and price must be positive."⟩) ∧
    Stock.record_trade ⟨"TEA", 100, .common 0, []⟩ 5 10 .buy 7 =
      (⟨"TEA", 100, .common 0, [⟨5, 10, .buy, 7⟩]⟩,
        Except.ok ⟨5, 10, .buy, 7⟩) := by
  refine ⟨by norm_num, by norm_num, ?_, ?_⟩
  · exact (record_trade_spec ⟨"TEA", 100, .common 0, []⟩ 5 (-1) .buy 7).1
      (by norm_num)
  · exact (record_trade_spec ⟨"TEA", 100, .common 0, []⟩ 5 10 .buy 7).2
      (by norm_num)

/-- C7: a preferred stock's dividend ignores `last_dividend`: two
preferred stocks differing only in that field agree on `get_dividend`,
`calculate_dividend_yield` and `calculate_pe_ratio` at every price, and
the dividend is exactly `fixed_dividend_rate * par_value`. -/
theorem preferred_last_dividend_invariant (symbol : String)
    (par_value ld1 ld2 rate price : ℚ) (trades : List Trade) :
    (Stock.get_dividend ⟨symbol, par_value, .preferred ld1 rate, trades⟩ =
      Stock.get_dividend ⟨symbol, par_value, .preferred ld2 rate, trades⟩) ∧
    (Stock.calculate_dividend_yield
        ⟨symbol, par_value, .preferred ld1 rate, trades⟩ price =
      Stock.calculate_dividend_yield
        ⟨symbol, par_value, .preferred ld2 rate, trades⟩ price) ∧
    (Stock.calculate_pe_ratio
        ⟨symbol, par_value, .preferred ld1 rate, trades⟩ price =
      Stock.calculate_pe_ratio
        ⟨symbol, par_value, .preferred ld2 rate, trades⟩ price) ∧
    (Stock.get_dividend ⟨symbol, par_value, .preferred ld1 rate, trades⟩ =
      rate * par_value) :=
  ⟨rfl, rfl, rfl, rfl⟩

/-- C1: the VWSP window contains exactly the trades with
`timestamp ≥ now - 5 minutes` (boundary included); with an empty window
the VWSP is absent, and otherwise it is
`Σ price·quantity / Σ quantity` over the included trades (given the
instrument's trades all carry positive quantity, as construction
guarantees). -/
theorem vwsp_window_spec (s : Stock) (now : ℤ)
    (hq : ∀ t ∈ s.trades, 0 < t.quantity) :
    (∀ t, t ∈ s.recent_trades now ↔
      t ∈ s.trades ∧ now - fiveMinutes ≤ t.timestamp) ∧
    (s.recent_trades now = [] →
      s.calculate_volume_weighted_stock_price now = none) ∧
    (s.recent_trades now ≠ [] →
      s.calculate_volume_weighted_stock_price now =
        some (((s.recent_trades now).map fun t => t.price * t.quantity).sum /
              ((s.recent_trades now).map fun t => t.quantity).sum)) :=
  ⟨mem_recent_trades s now, vwsp_of_recent_nil s now, vwsp_of_recent_ne_nil s now hq⟩

/-- Concrete instrument for the witnesses: scenario 4 of the spec, taken
at `now = 1000`, with one trade six minutes old and two recent ones. -/
def demoStock : Stock :=
  { symbol := "ALE", par_value := 60, info := .common 23,
    trades := [⟨640, 50, .buy, 65⟩, ⟨940, 100, .buy, 70⟩, ⟨1000, 50, .sell, 72⟩] }

/-- Witness for C1: on `demoStock` the six-minute-old trade is dropped and
the VWSP is `(100·70 + 50·72)/150 = 212/3`. -/
theorem vwsp_window_spec_witness :
    (∀ t ∈ demoStock.trades, 0 < t.quantity) ∧
    demoStock.recent_trades 1000 ≠ [] ∧
    demoStock.calculate_volume_weighted_stock_price 1000 = some (212 / 3) := by
  refine ⟨by decide, by decide, ?_⟩
  have h := (vwsp_window_spec demoStock 1000 (by decide)).2.2 (by decide)
  have hr : demoStock.recent_trades 1000 =
      [⟨940, 100, .buy, 70⟩, ⟨1000, 50, .sell, 72⟩] := by decide
  rw [h, hr]
  norm_num

/-- C9: if every trade in the log has positive quantity, a non-empty
window forces a strictly positive total quantity, so the defensive
zero-quantity branch of `calculate_volume_weighted_stock_price` is
unreachable and the division produces a present result. -/
theorem vwsp_positive_total_spec (s : Stock) (now : ℤ)
    (hq : ∀ t ∈ s.trades, 0 < t.quantity)
    (hne : s.recent_trades now ≠ []) :
    0 < ((s.recent_trades now).map fun t => t.quantity).sum ∧
    ∃ v, s.calculate_volume_weighted_stock_price now = some v := by
  have hsub : ∀ t ∈ s.recent_trades now, 0 < t.quantity := fun t ht =>
    hq t ((mem_recent_trades s now t).mp ht).1
  exact ⟨sum_quantity_pos _ hne hsub, _, vwsp_of_recent_ne_nil s now hq hne⟩

/-- Witness for C9 on `demoStock`: the window is non-empty, the total
quantity is positive and the VWSP is present. -/
theorem vwsp_positive_total_spec_witness :
    (∀ t ∈ demoStock.trades, 0 < t.quantity) ∧
    demoStock.recent_trades 1000 ≠ [] ∧
    0 < ((demoStock.recent_trades 1000).map fun t => t.quantity).sum ∧
    ∃ v, demoStock.calculate_volume_weighted_stock_price 1000 = some v := by
  have h := vwsp_positive_total_spec demoStock 1000 (by decide) (by decide)
  exact ⟨by decide, by decide, h.1, h.2⟩

/-- C2: the index collects exactly the present, strictly positive VWSP
values of the registered instruments; it is absent when that collection
is empty and otherwise equals the product of the collected values raised
to the power `1/n`. -/
theorem all_share_index_spec (e : StockExchange) (now : ℤ) :
    (∀ v : ℚ, v ∈ e.vwsp_values now ↔
      ∃ p ∈ e.stocks,
        p.2.calculate_volume_weighted_stock_price now = some v ∧ 0 < v) ∧
    e.calculate_gbce_all_share_index now =
      (if e.vwsp_values now = [] then none
       else some ((((e.vwsp_values now).map fun v : ℚ => (v : ℝ)).prod) ^
         ((1 : ℝ) / ((e.vwsp_values now).length : ℝ)))) :=
  ⟨fun v => mem_vwsp_values e now v, all_share_index_eq e now⟩

/-- C8: registering the same instruments (distinct symbols, identical
trade logs) in two different orders yields the same all-share index under
a fixed clock. -/
theorem all_share_index_order_invariant (l1 l2 : List Stock) (now : ℤ)
    (hperm : l1.Perm l2) (hnd : (l1.map fun s : Stock => s.symbol).Nodup) :
    (registerAll l1).calculate_gbce_all_share_index now =
      (registerAll l2).calculate_gbce_all_share_index now := by
  have hnd2 : (l2.map fun s : Stock => s.symbol).Nodup :=
    (hperm.map fun s : Stock => s.symbol).nodup_iff.mp hnd
  apply index_of_stocks_perm
  rw [registerAll_stocks l1 hnd, registerAll_stocks l2 hnd2]
  exact hperm.map _

/-- Concrete stocks for the C8 witness. -/
def stockA : Stock := ⟨"A", 100, .common 8, [⟨900, 10, .buy, 4⟩]⟩

/-- Second concrete stock for the C8 witness. -/
def stockB : Stock := ⟨"B", 100, .common 8, []⟩

/-- Witness for C8: the two registration orders of `stockA`, `stockB`
produce the same index. -/
theorem all_share_index_order_invariant_witness :
    [stockA, stockB].Perm [stockB, stockA] ∧
    ([stockA, stockB].map fun s : Stock => s.symbol).Nodup ∧
    (registerAll [stockA, stockB]).calculate_gbce_all_share_index 1000 =
      (registerAll [stockB, stockA]).calculate_gbce_all_share_index 1000 := by
  have hp : [stockA, stockB].Perm [stockB, stockA] := List.Perm.swap stockB stockA []
  exact ⟨hp, by decide, all_share_index_order_invariant _ _ 1000 hp (by decide)⟩

/-- C10: all four query operations, rendered with explicit state, leave
the instrument (trade log and every other field) and the exchange
registry exactly as they were. -/
theorem query_operations_frame (s : Stock) (price : ℚ) (now : ℤ)
    (e : StockExchange) :
    (s.calculate_dividend_yieldS price).1 = s ∧
    (s.calculate_pe_ratioS price).1 = s ∧
    (s.calculate_volume_weighted_stock_priceS now).1 = s ∧
    (e.calculate_gbce_all_share_indexS now).1 = e :=
  ⟨dividend_yieldS_fst s price, pe_ratioS_fst s price, vwspS_fst s now,
    indexS_fst e now⟩
